import Mathlib

/-!
Shallow embedding of the rey HTTP load-generation engine
(src/report.rs and src/work.rs), with theorems checking the
natural-language specification against the code.

Modelling conventions:
* Rust `f64` values (latencies in seconds, marks, frequencies) are
  embedded as `ℚ` with exact arithmetic.
* Rust `u64`/`u16`/`usize` are embedded as `ℕ`; `usize` division is
  `Nat` division.
* The two `while` loops of `report.rs` (`histogram` and `latencies`)
  are embedded with an explicit fuel argument so that every definition
  is executable by the kernel; the fuel chosen at each call site is
  provably sufficient except where the original loop itself diverges,
  in which case the embedding returns `none` (the histogram walk can
  get stuck when a latency exceeds the last bucket mark).
* Rust `HashMap`s are embedded as association lists built by the same
  entry-bumping folds the source performs.
-/

namespace Rey

/-- One histogram bin, mirroring `Bucket` in src/report.rs. -/
structure Bucket where
  mark : ℚ
  count : ℕ
  frequency : ℚ
deriving DecidableEq, Repr

/-- One percentile-table row, mirroring `LatencyDistribution` in src/report.rs. -/
structure LatencyDistribution where
  percentage : ℕ
  latency : ℚ
deriving DecidableEq, Repr

/-- The final report, mirroring `Report` in src/report.rs.
`total` is the wall-clock duration in seconds, status-code and error
distributions are association lists standing for the source HashMaps. -/
structure Report where
  avg_total : ℚ
  fastest : ℚ
  slowest : ℚ
  average : ℚ
  rps : ℚ
  total_requests : ℕ
  total : ℚ
  error_dist : List (String × ℕ)
  status_code_dist : List (ℕ × ℕ)
  size_total : ℕ
  size_req : ℕ
  num_res : ℕ
  latency_dist : List LatencyDistribution
  histogram : List Bucket
deriving DecidableEq, Repr

/-- The accumulator filled by the Collector loop, mirroring `Reporter`
in src/report.rs. -/
structure Reporter where
  total_requests : ℕ
  success_requests : ℕ
  status_codes : List ℕ
  size_total : ℕ
  error_dist : List (String × ℕ)
  durations : List ℚ
deriving DecidableEq, Repr

/-- The 11 bucket marks of `Reporter::histogram` (src/report.rs lines
132-139): `bs = (slowest - fastest) / 10`, marks `fastest + bs * i`
for `i = 0..9`, then `slowest` itself. -/
def histogramMarks (fastest slowest : ℚ) : List ℚ :=
  ((List.range 10).map (fun i => fastest + (slowest - fastest) / 10 * (i : ℚ))) ++ [slowest]

/-- The forward-cursor counting walk of `Reporter::histogram`
(src/report.rs lines 141-154): while `i < durations.len()`, either
count `durations[i]` into bucket `bi` (when it is at most the mark),
or advance `bi` (when `bi < buckets.len() - 1`).  When neither is
possible the source loop spins forever; the embedding returns `none`
there (and on fuel exhaustion, which callers make unreachable). -/
def histGo (ds marks : List ℚ) : ℕ → ℕ → ℕ → List ℕ → Option (List ℕ)
  | 0, _, _, _ => none
  | fuel + 1, i, bi, counts =>
    if i < ds.length then
      if ds.getD i 0 ≤ marks.getD bi 0 then
        histGo ds marks fuel (i + 1) bi (counts.set bi (counts.getD bi 0 + 1))
      else if bi < marks.length - 1 then
        histGo ds marks fuel i (bi + 1) counts
      else none
    else some counts

/-- `Reporter::histogram` (src/report.rs lines 128-165): empty when
there are no successes, otherwise the zip of the 11 marks with the
counts of the walk, each frequency being `count / durations.len()`.
The unused local `max` of the source is omitted. -/
def Reporter.histogram (r : Reporter) (fastest slowest : ℚ) : Option (List Bucket) :=
  if r.success_requests = 0 then some [] else
    let buckets := histogramMarks fastest slowest
    (histGo r.durations buckets (r.durations.length + buckets.length) 0 0
        (List.replicate buckets.length 0)).map
      (fun counts =>
        (buckets.zip counts).map (fun bc =>
          { mark := bc.1, count := bc.2,
            frequency := (bc.2 : ℚ) / (r.durations.length : ℚ) }))

/-- The fixed target percentiles of `Reporter::latencies`
(src/report.rs line 168). -/
def pctls : List ℕ := [10, 25, 50, 75, 90, 95, 99]

/-- The percentile walk of `Reporter::latencies` (src/report.rs lines
170-179): while `i < durations.len()` and fewer than 7 values are
claimed, claim `durations[i]` for percentile `j` when
`i * 100 / durations.len() >= pctls[j]` (then advance `j`), and
advance `i` every iteration.  `i` increases each step, so fuel
`durations.len()` is exact. -/
def latGo (ds : List ℚ) : ℕ → ℕ → ℕ → List ℚ → List ℚ
  | 0, _, _, data => data
  | fuel + 1, i, j, data =>
    if i < ds.length ∧ data.length < pctls.length then
      if pctls.getD j 0 ≤ i * 100 / ds.length then
        latGo ds fuel (i + 1) (j + 1) (data ++ [ds.getD i 0])
      else
        latGo ds fuel (i + 1) j data
    else data

/-- `Reporter::latencies` (src/report.rs lines 167-188): zip the
target percentiles with the claimed latencies (the zip truncates to
the shorter list, dropping unclaimed percentiles). -/
def Reporter.latencies (r : Reporter) : List LatencyDistribution :=
  (pctls.zip (latGo r.durations r.durations.length 0 0 [])).map
    (fun pd => { percentage := pd.1, latency := pd.2 })

/-- The status-code fold of `Reporter::into_report` (src/report.rs
lines 213-219): bump the entry of one code in the association list
standing for the HashMap. -/
def bumpCode : List (ℕ × ℕ) → ℕ → List (ℕ × ℕ)
  | [], c => [(c, 1)]
  | (k, v) :: rest, c => if k = c then (k, v + 1) :: rest else (k, v) :: bumpCode rest c

/-- The status-code distribution: fold every recorded status code into
the map, as `Reporter::into_report` does. -/
def statusCodeDist (codes : List ℕ) : List (ℕ × ℕ) := codes.foldl bumpCode []

/-- `Reporter::into_report` (src/report.rs lines 190-222): averages,
sorting, fastest/slowest, histogram, percentile table the source
computes.  Returns `none` exactly when the histogram walk diverges
(proved unreachable below). -/
def Reporter.into_report (r : Reporter) (total : ℚ) : Option Report :=
  let avg_total : ℚ := r.durations.sum
  let average : ℚ :=
    if 0 < r.success_requests then avg_total / (r.success_requests : ℚ) else 0
  let size_req : ℕ :=
    if 0 < r.success_requests then r.size_total / r.success_requests else 0
  let sorted := List.insertionSort (· ≤ ·) r.durations
  let fastest := sorted.headD 0
  let slowest := sorted.getLastD 0
  let sortedSelf : Reporter := { r with durations := sorted }
  (sortedSelf.histogram fastest slowest).map (fun hist =>
    { avg_total := avg_total
      fastest := fastest
      slowest := slowest
      average := average
      rps := (r.total_requests : ℚ) / total
      total_requests := r.total_requests
      total := total
      error_dist := r.error_dist
      status_code_dist := statusCodeDist r.status_codes
      size_total := r.size_total
      size_req := size_req
      num_res := 0
      latency_dist := sortedSelf.latencies
      histogram := hist })

/-- One successful request's measurements, mirroring `SourceStat` in
src/work.rs. -/
structure SourceStat where
  duration : ℚ
  status_code : ℕ
  content_length : ℕ
deriving DecidableEq, Repr

/-- One request outcome sent over the channel, mirroring
`RequestResult = Result<SourceStat, reqwest::Error>` in src/work.rs. -/
inductive Outcome
  | ok (stat : SourceStat)
  | err (error : String)
deriving DecidableEq, Repr

/-- The error-distribution bump of the Collector loop
(src/work.rs line 153). -/
def bumpEntry : List (String × ℕ) → String → List (String × ℕ)
  | [], e => [(e, 1)]
  | (k, v) :: rest, e => if k = e then (k, v + 1) :: rest else (k, v) :: bumpEntry rest e

/-- The empty accumulator the Collector loop starts from
(src/work.rs lines 130-135). -/
def emptyReporter : Reporter :=
  { total_requests := 0, success_requests := 0, status_codes := [],
    size_total := 0, error_dist := [], durations := [] }

/-- One step of the Collector loop on a received message
(src/work.rs lines 150-161). -/
def collectStep (r : Reporter) (o : Outcome) : Reporter :=
  match o with
  | .ok stat =>
      { r with
        total_requests := r.total_requests + 1
        success_requests := r.success_requests + 1
        durations := r.durations ++ [stat.duration]
        status_codes := r.status_codes ++ [stat.status_code]
        size_total := r.size_total + stat.content_length }
  | .err e =>
      { r with
        total_requests := r.total_requests + 1
        error_dist := bumpEntry r.error_dist e }

/-- The Collector loop folded over the sequence of messages it
receives before the channel closes or cancellation fires. -/
def collectorRun (msgs : List Outcome) : Reporter :=
  msgs.foldl collectStep emptyReporter

/-- The configuration fields of `Work` that the quota computation
uses (src/work.rs lines 89-102). -/
structure WorkSpec where
  workers : ℕ
  total_requests : ℕ
  rate_limit : Option ℚ
deriving DecidableEq, Repr

/-- The per-worker quota of `Work::execute` (src/work.rs line 111):
`total_requests / workers` with integer division. -/
def workerQuota (spec : WorkSpec) : ℕ := spec.total_requests / spec.workers

/-- Observable scheduling events of one worker's loop. -/
inductive WEvent
  | sleep (micros : ℕ)
  | request
deriving DecidableEq, Repr

/-- The sleep interval of `Worker::execute` (src/work.rs lines 72-74):
`floor(1_000_000 / qps)` microseconds when a rate limit is set. -/
def sleepInterval (rate_limit : Option ℚ) : Option ℕ :=
  rate_limit.map (fun qps => (⌊(1000000 : ℚ) / qps⌋).toNat)

/-- The event trace of `Worker::execute`'s loop (src/work.rs lines
75-85) absent cancellation: for each of `requests` iterations, sleep
the fixed interval (when rate-limited) and then issue the request. -/
def workerLoop (interval : Option ℕ) : ℕ → List WEvent
  | 0 => []
  | n + 1 =>
    (match interval with
      | some iv => [WEvent.sleep iv, WEvent.request]
      | none => [WEvent.request]) ++ workerLoop interval n

/-- The full trace of one worker given its configured rate limit. -/
def workerTrace (rate_limit : Option ℚ) (requests : ℕ) : List WEvent :=
  workerLoop (sleepInterval rate_limit) requests

/-- The outcomes one worker sends absent cancellation: one per request
of its quota, given by an oracle for the network's answers. -/
def workerOutcomes (oracle : ℕ → Outcome) (quota : ℕ) : List Outcome :=
  (List.range quota).map oracle

/-- The per-worker outcome streams `Work::execute` spawns
(src/work.rs lines 113-127): `workers` workers, each with the same
integer-division quota. -/
def workStreams (spec : WorkSpec) (oracle : ℕ → ℕ → Outcome) : List (List Outcome) :=
  (List.range spec.workers).map (fun w => workerOutcomes (oracle w) (workerQuota spec))

/-- Amended-claim-side search: the first index `k` with
`start ≤ k < n` satisfying `p`, found by linear scan. -/
def findFrom (p : ℕ → Bool) : ℕ → ℕ → Option ℕ
  | 0, _ => none
  | fuel + 1, i => if p i then some i else findFrom p fuel (i + 1)

/-- Amended-claim-side definition: the first index `k` with
`start ≤ k < n` and `k * 100 / n ≥ p`. -/
def firstSatisfying (n p start : ℕ) : Option ℕ :=
  findFrom (fun k => decide (p ≤ k * 100 / n)) (n - start) start

/-- Amended-claim-side percentile table: each remaining target
percentile claims the first index satisfying its threshold that lies
strictly after the index claimed by the previous percentile; the
table ends when the list is exhausted. -/
def amendGo (ds : List ℚ) : List ℕ → ℕ → List ℚ
  | [], _ => []
  | p :: ps, start =>
    match firstSatisfying ds.length p start with
    | none => []
    | some k => ds.getD k 0 :: amendGo ds ps (k + 1)

/-- Amended-claim-side percentile table paired with its target
percentiles, for comparison with `Reporter.latencies`. -/
def amendedTable (ds : List ℚ) : List LatencyDistribution :=
  (pctls.zip (amendGo ds pctls 0)).map (fun pd => { percentage := pd.1, latency := pd.2 })

/-! ## Helper lemmas: Collector fold -/

theorem collectStep_total (r : Reporter) (o : Outcome) :
    (collectStep r o).total_requests = r.total_requests + 1 := by
  cases o <;> rfl

theorem foldl_collectStep_total (msgs : List Outcome) :
    ∀ r : Reporter,
      (msgs.foldl collectStep r).total_requests = r.total_requests + msgs.length := by
  induction msgs with
  | nil => intro r; simp
  | cons o rest ih =>
    intro r
    rw [List.foldl_cons, ih, collectStep_total]
    simp
    omega

theorem foldl_collectStep_inv (msgs : List Outcome) :
    ∀ r : Reporter,
      r.success_requests = r.durations.length →
      r.success_requests = r.status_codes.length →
      r.success_requests ≤ r.total_requests →
      (msgs.foldl collectStep r).success_requests = (msgs.foldl collectStep r).durations.length
      ∧ (msgs.foldl collectStep r).success_requests
          = (msgs.foldl collectStep r).status_codes.length
      ∧ (msgs.foldl collectStep r).success_requests
          ≤ (msgs.foldl collectStep r).total_requests := by
  induction msgs with
  | nil => intro r h1 h2 h3; exact ⟨h1, h2, h3⟩
  | cons o rest ih =>
    intro r h1 h2 h3
    rw [List.foldl_cons]
    refine ih (collectStep r o) ?_ ?_ ?_ <;>
      cases o <;> simp [collectStep] <;> omega

theorem collectorRun_inv (msgs : List Outcome) :
    (collectorRun msgs).success_requests = (collectorRun msgs).durations.length
    ∧ (collectorRun msgs).success_requests = (collectorRun msgs).status_codes.length
    ∧ (collectorRun msgs).success_requests ≤ (collectorRun msgs).total_requests :=
  foldl_collectStep_inv msgs emptyReporter rfl rfl (le_refl 0)

/-! ## Helper lemmas: worker loop trace -/

theorem workerLoop_rate (iv : ℕ) (n : ℕ) :
    workerLoop (some iv) n
      = (List.replicate n [WEvent.sleep iv, WEvent.request]).flatten := by
  induction n with
  | zero => rfl
  | succ k ih => rw [workerLoop, ih, List.replicate_succ, List.flatten_cons]

theorem workerLoop_none_request (n : ℕ) : ∀ e ∈ workerLoop none n, e = WEvent.request := by
  induction n with
  | zero => intro e he; simp [workerLoop] at he
  | succ k ih =>
    intro e he
    rw [workerLoop] at he
    rcases List.mem_append.mp he with h | h
    · simpa using h
    · exact ih e h

theorem workerLoop_request_count (iv : Option ℕ) (n : ℕ) :
    (workerLoop iv n).count WEvent.request = n := by
  induction n with
  | zero => cases iv <;> rfl
  | succ k ih =>
    cases iv <;>
      simp [workerLoop, List.count_append, List.count_cons, ih]

/-! ## Helper lemmas: sortedness -/

theorem sorted_getD_mono :
    ∀ l : List ℚ, List.Sorted (· ≤ ·) l →
      ∀ a b : ℕ, a ≤ b → b < l.length → l.getD a 0 ≤ l.getD b 0 := by
  intro l
  induction l with
  | nil => intro _ a b _ hb; simp at hb
  | cons x t ih =>
    intro hs a b hab hb
    rcases List.sorted_cons.mp hs with ⟨hx, ht⟩
    cases a with
    | zero =>
      cases b with
      | zero => simp
      | succ b' =>
        rw [List.getD_cons_zero, List.getD_cons_succ]
        have hb' : b' < t.length := by simpa using hb
        rw [List.getD_eq_getElem t 0 hb']
        exact hx _ (List.getElem_mem hb')
    | succ a' =>
      cases b with
      | zero => omega
      | succ b' =>
        rw [List.getD_cons_succ, List.getD_cons_succ]
        exact ih ht a' b' (by omega) (by simpa using hb)

theorem getLastD_irrel (t : List ℚ) (x d d' : ℚ) :
    (x :: t).getLastD d = (x :: t).getLastD d' := by
  rw [List.getLastD_cons, List.getLastD_cons]

theorem sorted_le_getLastD :
    ∀ l : List ℚ, List.Sorted (· ≤ ·) l → ∀ x ∈ l, x ≤ l.getLastD 0 := by
  intro l
  induction l with
  | nil => intro _ x hx; simp at hx
  | cons a t ih =>
    intro hs x hx
    rcases List.sorted_cons.mp hs with ⟨ha, ht⟩
    cases t with
    | nil =>
      rcases List.mem_singleton.mp hx with rfl
      rfl
    | cons b t' =>
      rw [List.getLastD_cons, getLastD_irrel t' b a 0]
      rcases List.mem_cons.mp hx with rfl | hx'
      · exact le_trans (ha b (by simp)) (ih ht b (by simp))
      · exact ih ht x hx'

/-! ## Helper lemmas: the histogram walk -/

theorem histGo_length (ds marks : List ℚ) :
    ∀ fuel i bi counts cs,
      histGo ds marks fuel i bi counts = some cs → cs.length = counts.length := by
  intro fuel
  induction fuel with
  | zero => intro i bi counts cs h; exact absurd h (by simp [histGo])
  | succ f ih =>
    intro i bi counts cs h
    rw [histGo] at h
    by_cases hi : i < ds.length
    · rw [if_pos hi] at h
      by_cases hle : ds.getD i 0 ≤ marks.getD bi 0
      · rw [if_pos hle] at h
        have := ih _ _ _ _ h
        simpa [List.length_set] using this
      · rw [if_neg hle] at h
        by_cases hbi : bi < marks.length - 1
        · rw [if_pos hbi] at h; exact ih _ _ _ _ h
        · rw [if_neg hbi] at h; exact absurd h (by simp)
    · rw [if_neg hi] at h
      injection h with h'
      rw [h']

theorem sum_set_getD_succ :
    ∀ (l : List ℕ) (bi : ℕ), bi < l.length →
      (l.set bi (l.getD bi 0 + 1)).sum = l.sum + 1 := by
  intro l
  induction l with
  | nil => intro bi h; simp at h
  | cons a t ih =>
    intro bi h
    cases bi with
    | zero => simp [List.getD_cons_zero]; omega
    | succ k =>
      have hk : k < t.length := by simpa using h
      simp only [List.getD_cons_succ, List.set_cons_succ, List.sum_cons, ih k hk]
      omega

theorem histGo_sum (ds marks : List ℚ) :
    ∀ fuel i bi counts cs, bi < counts.length → counts.length = marks.length →
      histGo ds marks fuel i bi counts = some cs →
      cs.sum = counts.sum + (ds.length - i) := by
  intro fuel
  induction fuel with
  | zero => intro i bi counts cs _ _ h; exact absurd h (by simp [histGo])
  | succ f ih =>
    intro i bi counts cs hbi hlen h
    rw [histGo] at h
    by_cases hi : i < ds.length
    · rw [if_pos hi] at h
      by_cases hle : ds.getD i 0 ≤ marks.getD bi 0
      · rw [if_pos hle] at h
        have h2 := ih (i + 1) bi _ cs (by simpa using hbi) (by simpa using hlen) h
        rw [h2, sum_set_getD_succ counts bi hbi]
        omega
      · rw [if_neg hle] at h
        by_cases hb2 : bi < marks.length - 1
        · rw [if_pos hb2] at h
          exact ih i (bi + 1) counts cs (by omega) hlen h
        · rw [if_neg hb2] at h; exact absurd h (by simp)
    · rw [if_neg hi] at h
      injection h with h'
      rw [h']
      omega

theorem histGo_terminates (ds marks : List ℚ) :
    ∀ fuel i bi counts, bi < marks.length →
      (∀ k, i ≤ k → k < ds.length → ds.getD k 0 ≤ marks.getD (marks.length - 1) 0) →
      ds.length - i + (marks.length - 1 - bi) < fuel →
      ∃ cs, histGo ds marks fuel i bi counts = some cs := by
  intro fuel
  induction fuel with
  | zero => intro i bi counts _ _ hlt; omega
  | succ f ih =>
    intro i bi counts hbi hall hfuel
    rw [histGo]
    by_cases hi : i < ds.length
    · rw [if_pos hi]
      by_cases hle : ds.getD i 0 ≤ marks.getD bi 0
      · rw [if_pos hle]
        exact ih (i + 1) bi _ hbi (fun k hk1 hk2 => hall k (by omega) hk2) (by omega)
      · rw [if_neg hle]
        have hb2 : bi < marks.length - 1 := by
          rcases lt_or_ge bi (marks.length - 1) with h | h
          · exact h
          · exfalso
            have hbe : bi = marks.length - 1 := by omega
            exact hle (hbe ▸ hall i (le_refl i) hi)
        rw [if_pos hb2]
        exact ih i (bi + 1) counts (by omega) hall (by omega)
    · rw [if_neg hi]
      exact ⟨counts, rfl⟩

theorem histGo_diverges (ds marks : List ℚ) (hsort : List.Sorted (· ≤ ·) marks) :
    ∀ fuel i bi counts, bi < marks.length →
      (∃ k, i ≤ k ∧ k < ds.length ∧ marks.getD (marks.length - 1) 0 < ds.getD k 0) →
      histGo ds marks fuel i bi counts = none := by
  intro fuel
  induction fuel with
  | zero => intro i bi counts _ _; rfl
  | succ f ih =>
    intro i bi counts hbi hk
    obtain ⟨k, hik, hklen, hkgt⟩ := hk
    have hi : i < ds.length := lt_of_le_of_lt hik hklen
    rw [histGo, if_pos hi]
    by_cases hle : ds.getD i 0 ≤ marks.getD bi 0
    · rw [if_pos hle]
      have hmono : marks.getD bi 0 ≤ marks.getD (marks.length - 1) 0 :=
        sorted_getD_mono marks hsort bi (marks.length - 1) (by omega) (by omega)
      have hne : i ≠ k := by
        intro he
        rw [he] at hle
        exact absurd (le_trans hle hmono) (not_le.mpr hkgt)
      exact ih (i + 1) bi _ hbi ⟨k, by omega, hklen, hkgt⟩
    · rw [if_neg hle]
      by_cases hb2 : bi < marks.length - 1
      · rw [if_pos hb2]
        exact ih i (bi + 1) counts (by omega) ⟨k, hik, hklen, hkgt⟩
      · rw [if_neg hb2]

/-! ## Helper lemmas: histogram assembly and `into_report` -/

theorem histogramMarks_length (f s : ℚ) : (histogramMarks f s).length = 11 := rfl

theorem histogramMarks_last (f s : ℚ) : (histogramMarks f s).getD 10 0 = s := by
  rfl

theorem histogram_some (r : Reporter) (f s : ℚ) (hpos : 0 < r.success_requests)
    (hall : ∀ x ∈ r.durations, x ≤ s) :
    ∃ bs, r.histogram f s = some bs
      ∧ bs.length = 11
      ∧ bs.map Bucket.mark = histogramMarks f s
      ∧ (bs.map Bucket.count).sum = r.durations.length
      ∧ ∀ b ∈ bs, b.frequency = (b.count : ℚ) / (r.durations.length : ℚ) := by
  have h0 : ¬ r.success_requests = 0 := by omega
  have hm11 : (histogramMarks f s).length = 11 := histogramMarks_length f s
  have hterm := histGo_terminates r.durations (histogramMarks f s)
    (r.durations.length + (histogramMarks f s).length) 0 0
    (List.replicate (histogramMarks f s).length 0)
    (by omega)
    (fun k _ hk => by
      rw [hm11]
      show r.durations.getD k 0 ≤ (histogramMarks f s).getD 10 0
      rw [histogramMarks_last, List.getD_eq_getElem _ _ hk]
      exact hall _ (List.getElem_mem hk))
    (by omega)
  obtain ⟨cs, hcs⟩ := hterm
  have hcslen : cs.length = 11 := by
    have := histGo_length r.durations (histogramMarks f s) _ _ _ _ _ hcs
    simpa [hm11] using this
  have hcssum : cs.sum = r.durations.length := by
    have := histGo_sum r.durations (histogramMarks f s) _ 0 0 _ cs
      (by simp [hm11]) (by simp) hcs
    simpa using this
  refine ⟨(( histogramMarks f s).zip cs).map (fun bc =>
      { mark := bc.1, count := bc.2,
        frequency := (bc.2 : ℚ) / (r.durations.length : ℚ) }), ?_, ?_, ?_, ?_, ?_⟩
  · rw [Reporter.histogram, if_neg h0]
    simp only []
    rw [hcs]
    rfl
  · rw [List.length_map, List.length_zip, hm11, hcslen]
    simp
  · have : (((histogramMarks f s).zip cs).map fun bc =>
        ({ mark := bc.1, count := bc.2,
           frequency := (bc.2 : ℚ) / (r.durations.length : ℚ) } : Bucket)).map Bucket.mark
        = ((histogramMarks f s).zip cs).map Prod.fst := by
      rw [List.map_map]; rfl
    rw [this, List.map_fst_zip _ _ (by omega)]
  · have : (((histogramMarks f s).zip cs).map fun bc =>
        ({ mark := bc.1, count := bc.2,
           frequency := (bc.2 : ℚ) / (r.durations.length : ℚ) } : Bucket)).map Bucket.count
        = ((histogramMarks f s).zip cs).map Prod.snd := by
      rw [List.map_map]; rfl
    rw [this, List.map_snd_zip _ _ (by omega), hcssum]
  · intro b hb
    rcases List.mem_map.mp hb with ⟨bc, _, rfl⟩
    rfl

theorem into_report_eq (r : Reporter) (t : ℚ) :
    ∃ rep, r.into_report t = some rep
      ∧ rep.avg_total = r.durations.sum
      ∧ rep.average
          = (if 0 < r.success_requests then r.durations.sum / (r.success_requests : ℚ) else 0)
      ∧ rep.size_req
          = (if 0 < r.success_requests then r.size_total / r.success_requests else 0)
      ∧ rep.fastest = (List.insertionSort (· ≤ ·) r.durations).headD 0
      ∧ rep.slowest = (List.insertionSort (· ≤ ·) r.durations).getLastD 0
      ∧ rep.latency_dist
          = Reporter.latencies { r with durations := List.insertionSort (· ≤ ·) r.durations }
      ∧ Reporter.histogram { r with durations := List.insertionSort (· ≤ ·) r.durations }
          rep.fastest rep.slowest = some rep.histogram
      ∧ rep.total_requests = r.total_requests
      ∧ rep.size_total = r.size_total
      ∧ rep.error_dist = r.error_dist
      ∧ rep.status_code_dist = statusCodeDist r.status_codes := by
  have hhist : ∃ hist,
      Reporter.histogram { r with durations := List.insertionSort (· ≤ ·) r.durations }
        ((List.insertionSort (· ≤ ·) r.durations).headD 0)
        ((List.insertionSort (· ≤ ·) r.durations).getLastD 0) = some hist := by
    by_cases h0 : r.success_requests = 0
    · exact ⟨[], by rw [Reporter.histogram, if_pos h0]⟩
    · obtain ⟨bs, hbs, _⟩ := histogram_some
        { r with durations := List.insertionSort (· ≤ ·) r.durations }
        ((List.insertionSort (· ≤ ·) r.durations).headD 0)
        ((List.insertionSort (· ≤ ·) r.durations).getLastD 0)
        (by simpa using Nat.pos_of_ne_zero h0)
        (fun x hx => sorted_le_getLastD _
          (List.sorted_insertionSort (· ≤ ·) r.durations) x (by simpa using hx))
      exact ⟨bs, hbs⟩
  obtain ⟨hist, hh⟩ := hhist
  refine ⟨{ avg_total := r.durations.sum
            fastest := (List.insertionSort (· ≤ ·) r.durations).headD 0
            slowest := (List.insertionSort (· ≤ ·) r.durations).getLastD 0
            average :=
              if 0 < r.success_requests then r.durations.sum / (r.success_requests : ℚ) else 0
            rps := (r.total_requests : ℚ) / t
            total_requests := r.total_requests
            total := t
            error_dist := r.error_dist
            status_code_dist := statusCodeDist r.status_codes
            size_total := r.size_total
            size_req :=
              if 0 < r.success_requests then r.size_total / r.success_requests else 0
            num_res := 0
            latency_dist :=
              Reporter.latencies { r with durations := List.insertionSort (· ≤ ·) r.durations }
            histogram := hist },
      ?_, rfl, rfl, rfl, rfl, rfl, rfl, ?_, rfl, rfl, rfl, rfl⟩
  · simp only [Reporter.into_report]
    rw [hh]
    rfl
  · exact hh

/-! ## Helper lemmas: the percentile walk -/

theorem latGo_sublist (ds : List ℚ) :
    ∀ fuel i j data, ∃ extra,
      latGo ds fuel i j data = data ++ extra ∧ extra.Sublist (ds.drop i) := by
  intro fuel
  induction fuel with
  | zero => intro i j data; exact ⟨[], by rw [latGo, List.append_nil], List.nil_sublist _⟩
  | succ f ih =>
    intro i j data
    rw [latGo]
    by_cases hguard : i < ds.length ∧ data.length < pctls.length
    · rw [if_pos hguard]
      have hdropi : ds.drop i = ds.getD i 0 :: ds.drop (i + 1) := by
        rw [List.drop_eq_getElem_cons hguard.1, List.getD_eq_getElem _ _ hguard.1]
      by_cases hsat : pctls.getD j 0 ≤ i * 100 / ds.length
      · rw [if_pos hsat]
        obtain ⟨extra, heq, hsub⟩ := ih (i + 1) (j + 1) (data ++ [ds.getD i 0])
        refine ⟨ds.getD i 0 :: extra, ?_, ?_⟩
        · rw [heq, List.append_assoc]
          rfl
        · rw [hdropi]
          exact List.Sublist.cons₂ _ hsub
      · rw [if_neg hsat]
        obtain ⟨extra, heq, hsub⟩ := ih (i + 1) j data
        refine ⟨extra, heq, ?_⟩
        rw [hdropi]
        exact List.Sublist.cons _ hsub
    · rw [if_neg hguard]
      exact ⟨[], by rw [List.append_nil], List.nil_sublist _⟩

theorem latGo_length_le (ds : List ℚ) :
    ∀ fuel i j data, data.length ≤ pctls.length →
      (latGo ds fuel i j data).length ≤ pctls.length := by
  intro fuel
  induction fuel with
  | zero => intro i j data h; rw [latGo]; exact h
  | succ f ih =>
    intro i j data h
    rw [latGo]
    by_cases hguard : i < ds.length ∧ data.length < pctls.length
    · rw [if_pos hguard]
      by_cases hsat : pctls.getD j 0 ≤ i * 100 / ds.length
      · rw [if_pos hsat]
        exact ih (i + 1) (j + 1) _ (by simpa using hguard.2)
      · rw [if_neg hsat]
        exact ih (i + 1) j data h
    · rw [if_neg hguard]
      exact h

theorem firstSatisfying_none (n p start : ℕ) (h : n ≤ start) :
    firstSatisfying n p start = none := by
  rw [firstSatisfying, Nat.sub_eq_zero_of_le h]
  rfl

theorem firstSatisfying_hit (n p start : ℕ) (h1 : start < n) (h2 : p ≤ start * 100 / n) :
    firstSatisfying n p start = some start := by
  rw [firstSatisfying]
  have he : n - start = (n - start - 1) + 1 := by omega
  rw [he, findFrom]
  simp [h2]

theorem firstSatisfying_step (n p start : ℕ) (h1 : start < n) (h2 : ¬ p ≤ start * 100 / n) :
    firstSatisfying n p start = firstSatisfying n p (start + 1) := by
  rw [firstSatisfying, firstSatisfying]
  have he : n - start = (n - (start + 1)) + 1 := by omega
  rw [he, findFrom]
  simp [h2]

theorem amendGo_stop (ds : List ℚ) (ps : List ℕ) (start : ℕ) (h : ds.length ≤ start) :
    amendGo ds ps start = [] := by
  cases ps with
  | nil => rfl
  | cons p ps' => rw [amendGo, firstSatisfying_none _ _ _ h]

theorem latGo_amendGo (ds : List ℚ) :
    ∀ fuel i j data, ds.length ≤ i + fuel → j = data.length →
      latGo ds fuel i j data = data ++ amendGo ds (pctls.drop j) i := by
  intro fuel
  induction fuel with
  | zero =>
    intro i j data hfuel hj
    rw [latGo, amendGo_stop ds _ i (by omega), List.append_nil]
  | succ f ih =>
    intro i j data hfuel hj
    rw [latGo]
    by_cases hguard : i < ds.length ∧ data.length < pctls.length
    · rw [if_pos hguard]
      obtain ⟨hi, hdl⟩ := hguard
      have hj7 : j < pctls.length := hj ▸ hdl
      have hdrop : pctls.drop j = pctls.getD j 0 :: pctls.drop (j + 1) := by
        rw [List.drop_eq_getElem_cons hj7, List.getD_eq_getElem _ _ hj7]
      by_cases hsat : pctls.getD j 0 ≤ i * 100 / ds.length
      · rw [if_pos hsat]
        rw [ih (i + 1) (j + 1) (data ++ [ds.getD i 0]) (by omega) (by simp [hj])]
        rw [hdrop, amendGo, firstSatisfying_hit ds.length _ i hi hsat]
        simp
      · rw [if_neg hsat]
        rw [ih (i + 1) j data (by omega) hj]
        rw [hdrop, amendGo, amendGo, firstSatisfying_step ds.length _ i hi hsat]
    · rw [if_neg hguard]
      rcases Decidable.not_and_iff_or_not.mp hguard with hni | hnd
      · rw [amendGo_stop ds _ i (by omega), List.append_nil]
      · have hple : pctls.length ≤ j := by omega
        rw [List.drop_eq_nil_of_le hple, amendGo, List.append_nil]

theorem latencyTable_getD (ps : List ℕ) (ds : List ℚ) (k : ℕ)
    (hk1 : k < ps.length) (hk2 : k < ds.length) :
    (((ps.zip ds).map
        (fun pd => ({ percentage := pd.1, latency := pd.2 } : LatencyDistribution))).getD k
        { percentage := 0, latency := 0 }).latency = ds.getD k 0 := by
  have hkz : k < (((ps.zip ds).map
      (fun pd => ({ percentage := pd.1, latency := pd.2 } : LatencyDistribution)))).length := by
    rw [List.length_map, List.length_zip]
    exact lt_min hk1 hk2
  rw [List.getD_eq_getElem _ _ hkz, List.getElem_map, List.getElem_zip,
    List.getD_eq_getElem _ _ hk2]

theorem into_report_histogram_facts (r : Reporter) (t : ℚ) (hpos : 0 < r.success_requests) :
    ∃ rep, r.into_report t = some rep
      ∧ rep.histogram.length = 11
      ∧ rep.histogram.map Bucket.mark = histogramMarks rep.fastest rep.slowest
      ∧ (rep.histogram.map Bucket.count).sum = r.durations.length
      ∧ ∀ b ∈ rep.histogram, b.frequency = (b.count : ℚ) / (r.durations.length : ℚ) := by
  obtain ⟨rep, hrep, _, _, _, hfast, hslow, _, hhist, _, _, _, _⟩ := into_report_eq r t
  obtain ⟨bs, hbs, h11, hmark, hsum, hfreq⟩ := histogram_some
    { r with durations := List.insertionSort (· ≤ ·) r.durations }
    rep.fastest rep.slowest (by simpa using hpos)
    (by
      intro x hx
      rw [hslow]
      exact sorted_le_getLastD _ (List.sorted_insertionSort _ _) x (by simpa using hx))
  rw [hbs] at hhist
  injection hhist with hh
  refine ⟨rep, hrep, ?_, ?_, ?_, ?_⟩
  · rw [← hh]; exact h11
  · rw [← hh]; exact hmark
  · rw [← hh]
    simpa [List.length_insertionSort] using hsum
  · rw [← hh]
    intro b hb
    simpa [List.length_insertionSort] using hfreq b hb

/-! ## Claim theorems -/

/-- Claim C1, counterexample: on the sorted latency list `[1, 2, 3, 4]` the
code records latency `3` against target percentile `25`, yet the first index
`i` with `i * 100 / 4 ≥ 25` is `i = 1`, whose latency is `2 ≠ 3`.  (Indices
`1` also first-satisfies percentile `10`, and the walk claims at most one
percentile per index, so percentile `25` is pushed to index `2`.)  This
refutes the claim that each target percentile records the latency at the
first index satisfying its threshold. -/
theorem claim_C1_counterexample :
    (Reporter.latencies
        { total_requests := 4, success_requests := 4, status_codes := [], size_total := 0,
          error_dist := [], durations := [1, 2, 3, 4] }).getD 1 { percentage := 0, latency := 0 }
      = { percentage := 25, latency := 3 }
    ∧ (25 ≤ 1 * 100 / ([1, 2, 3, 4] : List ℚ).length
        ∧ ∀ i : ℕ, i < 1 → ¬ 25 ≤ i * 100 / ([1, 2, 3, 4] : List ℚ).length)
    ∧ ([1, 2, 3, 4] : List ℚ).getD 1 0 = 2
    ∧ (3 : ℚ) ≠ 2 := by
  refine ⟨by decide, ⟨by decide, by decide⟩, by decide, by decide⟩

/-- Claim C1 (amended): for every non-empty latency list, the percentile
table pairs the target percentiles `10, 25, 50, 75, 90, 95, 99` in order
with the latencies claimed by a single forward walk in which each target
percentile is satisfied by the first index `i` with
`i * 100 / len ≥ p` lying strictly after the index claimed by the previous
target percentile; at most one target percentile is claimed per index, so
when two distinct target percentiles are first satisfied at the same index
the later one receives the following index's latency instead (or is
omitted when the list is exhausted). -/
theorem claim_C1 (r : Reporter) (hne : r.durations ≠ []) :
    r.latencies = amendedTable r.durations := by
  rw [Reporter.latencies, amendedTable,
    latGo_amendGo r.durations r.durations.length 0 0 [] (by omega) rfl]
  rfl

/-- Witness for claim C1 (amended) at the concrete list `[1, 2, 3, 4]`. -/
theorem claim_C1_witness :
    Reporter.latencies
        { total_requests := 4, success_requests := 4, status_codes := [], size_total := 0,
          error_dist := [], durations := [1, 2, 3, 4] }
      = amendedTable [1, 2, 3, 4] :=
  claim_C1
    { total_requests := 4, success_requests := 4, status_codes := [], size_total := 0,
      error_dist := [], durations := [1, 2, 3, 4] } (by decide)

/-- Claim C3: the Orchestrator gives every worker the identical quota
`total_requests / workers` (integer division); each worker's loop issues
exactly that many requests absent cancellation; the concatenation of all
worker streams has length `workers * (total_requests / workers)`; and the
attempts the Collector records from any sub-permutation of those streams
(cancellation may drop messages) never exceed
`workers * (total_requests / workers)`, with equality when nothing is
dropped — remainder requests are never issued. -/
theorem claim_C3 (spec : WorkSpec) (oracle : ℕ → ℕ → Outcome) (msgs : List Outcome)
    (hrecv : msgs.Subperm (workStreams spec oracle).flatten) :
    workerQuota spec = spec.total_requests / spec.workers
    ∧ (∀ iv : Option ℕ,
        (workerLoop iv (workerQuota spec)).count WEvent.request = workerQuota spec)
    ∧ (workStreams spec oracle).flatten.length
        = spec.workers * (spec.total_requests / spec.workers)
    ∧ (collectorRun msgs).total_requests ≤ spec.workers * (spec.total_requests / spec.workers)
    ∧ (msgs.Perm (workStreams spec oracle).flatten →
        (collectorRun msgs).total_requests
          = spec.workers * (spec.total_requests / spec.workers)) := by
  have hjl : (workStreams spec oracle).flatten.length
      = spec.workers * (spec.total_requests / spec.workers) := by
    rw [List.length_flatten, workStreams, List.map_map]
    have hconst : (List.length ∘ fun w => workerOutcomes (oracle w) (workerQuota spec))
        = fun _ => workerQuota spec := by
      funext w
      simp [workerOutcomes]
    rw [hconst, List.map_const', List.sum_replicate, List.length_range, smul_eq_mul,
      workerQuota]
  have htot : (collectorRun msgs).total_requests = msgs.length := by
    rw [collectorRun, foldl_collectStep_total]
    simp [emptyReporter]
  refine ⟨rfl, fun iv => workerLoop_request_count iv _, hjl, ?_, ?_⟩
  · rw [htot, ← hjl]
    exact hrecv.length_le
  · intro hp
    rw [htot, ← hjl, hp.length_eq]

/-- Witness for claim C3 with 3 workers, 10 total requests and an empty
received prefix (full cancellation before any result). -/
theorem claim_C3_witness :
    workerQuota ⟨3, 10, none⟩ = 10 / 3
    ∧ (∀ iv : Option ℕ,
        (workerLoop iv (workerQuota ⟨3, 10, none⟩)).count WEvent.request
          = workerQuota ⟨3, 10, none⟩)
    ∧ (workStreams ⟨3, 10, none⟩ (fun _ _ => Outcome.err "network error")).flatten.length
        = 3 * (10 / 3)
    ∧ (collectorRun []).total_requests ≤ 3 * (10 / 3)
    ∧ (List.Perm []
          (workStreams ⟨3, 10, none⟩ (fun _ _ => Outcome.err "network error")).flatten →
        (collectorRun []).total_requests = 3 * (10 / 3)) :=
  claim_C3 ⟨3, 10, none⟩ (fun _ _ => Outcome.err "network error") [] List.nil_subperm

/-- Claim C6: with a configured rate limit `qps` the sleep interval is
`floor(1_000_000 / qps)` microseconds and the worker's trace is exactly
`requests` repetitions of (sleep interval, issue request) — so the very
first request is also preceded by a sleep; a worker without a rate limit
never sleeps. -/
theorem claim_C6 (qps : ℚ) (hq : 0 < qps) (n : ℕ) :
    sleepInterval (some qps) = some (⌊(1000000 : ℚ) / qps⌋.toNat)
    ∧ workerTrace (some qps) n
        = (List.replicate n
            [WEvent.sleep (⌊(1000000 : ℚ) / qps⌋.toNat), WEvent.request]).flatten
    ∧ (∀ e ∈ workerTrace none n, e = WEvent.request) := by
  refine ⟨rfl, ?_, ?_⟩
  · rw [workerTrace]
    exact workerLoop_rate _ n
  · intro e he
    exact workerLoop_none_request n e he

/-- Witness for claim C6 at `qps = 10`, two requests: the interval is
100000 microseconds and each request is preceded by a sleep. -/
theorem claim_C6_witness :
    sleepInterval (some (10 : ℚ)) = some (⌊(1000000 : ℚ) / 10⌋.toNat)
    ∧ workerTrace (some (10 : ℚ)) 2
        = (List.replicate 2
            [WEvent.sleep (⌊(1000000 : ℚ) / 10⌋.toNat), WEvent.request]).flatten
    ∧ (∀ e ∈ workerTrace none 2, e = WEvent.request) :=
  claim_C6 10 (by norm_num) 2

/-- Claim C9: every accumulator the Collector loop produces satisfies
`success_requests = durations.length = status_codes.length` and
`success_requests ≤ total_requests`; consequently every histogram frequency,
whose denominator in the code is `durations.len()`, equals
`count / success_requests`. -/
theorem claim_C9 (msgs : List Outcome) (f s : ℚ) :
    (collectorRun msgs).success_requests = (collectorRun msgs).durations.length
    ∧ (collectorRun msgs).success_requests = (collectorRun msgs).status_codes.length
    ∧ (collectorRun msgs).success_requests ≤ (collectorRun msgs).total_requests
    ∧ ∀ bs, (collectorRun msgs).histogram f s = some bs →
        ∀ b ∈ bs, b.frequency = (b.count : ℚ) / ((collectorRun msgs).success_requests : ℚ) := by
  obtain ⟨h1, h2, h3⟩ := collectorRun_inv msgs
  refine ⟨h1, h2, h3, ?_⟩
  intro bs hbs b hb
  by_cases h0 : (collectorRun msgs).success_requests = 0
  · rw [Reporter.histogram, if_pos h0] at hbs
    injection hbs with hbs'
    rw [← hbs'] at hb
    simp at hb
  · simp only [Reporter.histogram, if_neg h0] at hbs
    obtain ⟨cs, _, hfn⟩ := Option.map_eq_some'.mp hbs
    rw [← hfn] at hb
    rcases List.mem_map.mp hb with ⟨bc, _, rfl⟩
    rw [h1]

/-- Claim C2: for every accumulator with positive success count whose
latency-list length equals the success count, the Statistics Engine's 11
histogram bucket counts (produced by the forward-cursor walk over the
sorted latency list inside `into_report`) sum to `success_count`, and
every bucket's frequency is its count divided by `success_count`. -/
theorem claim_C2 (r : Reporter) (t : ℚ) (hpos : 0 < r.success_requests)
    (hlen : r.durations.length = r.success_requests) :
    ∃ rep, r.into_report t = some rep
      ∧ rep.histogram.length = 11
      ∧ (rep.histogram.map Bucket.count).sum = r.success_requests
      ∧ ∀ b ∈ rep.histogram, b.frequency = (b.count : ℚ) / (r.success_requests : ℚ) := by
  obtain ⟨rep, hrep, h11, _, hsum, hfreq⟩ := into_report_histogram_facts r t hpos
  refine ⟨rep, hrep, h11, ?_, ?_⟩
  · rw [hsum, hlen]
  · intro b hb
    rw [hfreq b hb, hlen]

/-- Witness for claim C2: two successes with latencies 1 and 2. -/
theorem claim_C2_witness :
    ∃ rep, Reporter.into_report
        { total_requests := 2, success_requests := 2, status_codes := [200, 200],
          size_total := 10, error_dist := [], durations := [1, 2] } 1 = some rep
      ∧ rep.histogram.length = 11
      ∧ (rep.histogram.map Bucket.count).sum = 2
      ∧ ∀ b ∈ rep.histogram, b.frequency = (b.count : ℚ) / ((2 : ℕ) : ℚ) :=
  claim_C2
    { total_requests := 2, success_requests := 2, status_codes := [200, 200],
      size_total := 10, error_dist := [], durations := [1, 2] } 1 (by decide) (by decide)

/-- Claim C4: the Statistics Engine is invariant under permuting the
latency list — running `into_report` on any permutation of the durations
produces the same `Report` (every field equal) as running it on the
original (in particular on its ascending-sorted arrangement). -/
theorem claim_C4 (r : Reporter) (l : List ℚ) (hperm : l.Perm r.durations) (t : ℚ) :
    Reporter.into_report { r with durations := l } t = r.into_report t := by
  have hsort : List.insertionSort (· ≤ ·) l = List.insertionSort (· ≤ ·) r.durations :=
    List.eq_of_perm_of_sorted
      ((List.perm_insertionSort _ l).trans
        (hperm.trans (List.perm_insertionSort _ r.durations).symm))
      (List.sorted_insertionSort _ l) (List.sorted_insertionSort _ r.durations)
  have hsum : l.sum = r.durations.sum := hperm.sum_eq
  obtain ⟨tr, sr, sc, st, ed, du⟩ := r
  simp only [Reporter.into_report] at hsort hsum ⊢
  rw [hsort, hsum]

/-- Witness for claim C4: `[1, 2]` is a permutation of `[2, 1]`. -/
theorem claim_C4_witness :
    Reporter.into_report
        { total_requests := 2, success_requests := 2, status_codes := [200, 200],
          size_total := 10, error_dist := [], durations := [1, 2] } 5
      = Reporter.into_report
        { total_requests := 2, success_requests := 2, status_codes := [200, 200],
          size_total := 10, error_dist := [], durations := [2, 1] } 5 :=
  claim_C4
    { total_requests := 2, success_requests := 2, status_codes := [200, 200],
      size_total := 10, error_dist := [], durations := [2, 1] }
    [1, 2] (by decide) 5

/-- Claim C5: for every `fastest ≤ slowest` with a positive success count
the engine builds exactly 11 bucket marks, mark `i` (for `i = 0..9`) being
`fastest + i * (slowest - fastest) / 10` and the 11th mark being `slowest`
exactly; and the marks of the report's histogram are exactly
`histogramMarks` of the report's own fastest and slowest. -/
theorem claim_C5 (r : Reporter) (t f s : ℚ) (hfs : f ≤ s) (hpos : 0 < r.success_requests) :
    (histogramMarks f s).length = 11
    ∧ (∀ i : ℕ, i < 10 →
        (histogramMarks f s).getD i 0 = f + (i : ℚ) * (s - f) / 10)
    ∧ (histogramMarks f s).getD 10 0 = s
    ∧ ∃ rep, r.into_report t = some rep
        ∧ rep.histogram.map Bucket.mark = histogramMarks rep.fastest rep.slowest := by
  refine ⟨histogramMarks_length f s, ?_, histogramMarks_last f s, ?_⟩
  · intro i hi
    interval_cases i <;>
      (show f + (s - f) / 10 * _ = _
       push_cast
       ring)
  · obtain ⟨rep, hrep, _, hmark, _, _⟩ := into_report_histogram_facts r t hpos
    exact ⟨rep, hrep, hmark⟩

/-- Witness for claim C5 at `f = 1 ≤ s = 2` with one success. -/
theorem claim_C5_witness :
    (histogramMarks 1 2).length = 11
    ∧ (∀ i : ℕ, i < 10 →
        (histogramMarks 1 2).getD i 0 = 1 + (i : ℚ) * (2 - 1) / 10)
    ∧ (histogramMarks 1 2).getD 10 0 = 2
    ∧ ∃ rep, Reporter.into_report
          { total_requests := 1, success_requests := 1, status_codes := [200],
            size_total := 5, error_dist := [], durations := [1] } 1 = some rep
        ∧ rep.histogram.map Bucket.mark = histogramMarks rep.fastest rep.slowest :=
  claim_C5
    { total_requests := 1, success_requests := 1, status_codes := [200],
      size_total := 5, error_dist := [], durations := [1] }
    1 1 2 (by norm_num) (by decide)

/-- Claim C7: every accumulator the Collector produces with zero
successes yields a report with `average = 0`, `size_req = 0`,
`fastest = 0`, `slowest = 0`, an empty histogram and an empty percentile
table. -/
theorem claim_C7 (msgs : List Outcome) (t : ℚ)
    (h0 : (collectorRun msgs).success_requests = 0) :
    ∃ rep, (collectorRun msgs).into_report t = some rep
      ∧ rep.average = 0 ∧ rep.size_req = 0 ∧ rep.fastest = 0 ∧ rep.slowest = 0
      ∧ rep.histogram = [] ∧ rep.latency_dist = [] := by
  obtain ⟨h1, _, _⟩ := collectorRun_inv msgs
  have hdur : (collectorRun msgs).durations = [] := by
    have hlen0 : (collectorRun msgs).durations.length = 0 := by omega
    exact List.eq_nil_of_length_eq_zero hlen0
  obtain ⟨rep, hrep, _, haverage, hsizereq, hfast, hslow, hlat, hhist, _, _, _, _⟩ :=
    into_report_eq (collectorRun msgs) t
  refine ⟨rep, hrep, ?_, ?_, ?_, ?_, ?_, ?_⟩
  · rw [haverage, if_neg (by omega)]
  · rw [hsizereq, if_neg (by omega)]
  · rw [hfast, hdur]
    rfl
  · rw [hslow, hdur]
    rfl
  · have hsz : ({ collectorRun msgs with
        durations := List.insertionSort (· ≤ ·) (collectorRun msgs).durations } :
          Reporter).success_requests = 0 := h0
    rw [Reporter.histogram, if_pos hsz] at hhist
    injection hhist with hh
    rw [← hh]
  · rw [hlat, Reporter.latencies]
    rw [hdur]
    rfl

/-- Witness for claim C7: one failed request, zero successes. -/
theorem claim_C7_witness :
    ∃ rep, (collectorRun [Outcome.err "connection refused"]).into_report 1 = some rep
      ∧ rep.average = 0 ∧ rep.size_req = 0 ∧ rep.fastest = 0 ∧ rep.slowest = 0
      ∧ rep.histogram = [] ∧ rep.latency_dist = [] :=
  claim_C7 [Outcome.err "connection refused"] 1 (by decide)

/-- Claim C8: for every non-empty success set, the latency values in the
report's percentile table are non-decreasing as the position (hence the
target percentile) increases. -/
theorem claim_C8 (r : Reporter) (t : ℚ) (hne : r.durations ≠ []) :
    ∃ rep, r.into_report t = some rep
      ∧ ∀ a b : ℕ, a ≤ b → b < rep.latency_dist.length →
          (rep.latency_dist.getD a { percentage := 0, latency := 0 }).latency
            ≤ (rep.latency_dist.getD b { percentage := 0, latency := 0 }).latency := by
  obtain ⟨rep, hrep, _, _, _, _, _, hlat, _, _, _, _, _⟩ := into_report_eq r t
  refine ⟨rep, hrep, ?_⟩
  intro a b hab hb
  rw [hlat] at hb ⊢
  simp only [Reporter.latencies] at hb ⊢
  obtain ⟨extra, hextra, hsub⟩ :=
    latGo_sublist (List.insertionSort (· ≤ ·) r.durations)
      (List.insertionSort (· ≤ ·) r.durations).length 0 0 []
  rw [List.nil_append] at hextra
  rw [hextra] at hb ⊢
  rw [List.length_map, List.length_zip] at hb
  have hb1 : b < pctls.length := lt_of_lt_of_le hb (min_le_left _ _)
  have hb2 : b < extra.length := lt_of_lt_of_le hb (min_le_right _ _)
  rw [latencyTable_getD pctls extra a (by omega) (by omega),
    latencyTable_getD pctls extra b hb1 hb2]
  have hsorted : List.Sorted (· ≤ ·) extra := by
    refine List.Pairwise.sublist ?_ (List.sorted_insertionSort (· ≤ ·) r.durations)
    simpa using hsub
  exact sorted_getD_mono extra hsorted a b hab hb2

/-- Witness for claim C8 on the latency list `[3, 1, 2, 4]`. -/
theorem claim_C8_witness :
    ∃ rep, Reporter.into_report
        { total_requests := 4, success_requests := 4, status_codes := [200, 200, 200, 200],
          size_total := 0, error_dist := [], durations := [3, 1, 2, 4] } 1 = some rep
      ∧ ∀ a b : ℕ, a ≤ b → b < rep.latency_dist.length →
          (rep.latency_dist.getD a { percentage := 0, latency := 0 }).latency
            ≤ (rep.latency_dist.getD b { percentage := 0, latency := 0 }).latency :=
  claim_C8
    { total_requests := 4, success_requests := 4, status_codes := [200, 200, 200, 200],
      size_total := 0, error_dist := [], durations := [3, 1, 2, 4] } 1 (by decide)

/-- Claim C10: the histogram's bucket walk terminates (returns counts)
whenever every latency is at most the final bucket mark — with the fuel
`into_report` supplies; when the marks are non-decreasing and some latency
exceeds the final mark, the walk returns `none` for every fuel, i.e. the
source loop never terminates; and `into_report` itself, which passes the
sorted list's maximum as the final mark, always produces a report. -/
theorem claim_C10 (ds marks : List ℚ) (counts : List ℕ) (hm : marks ≠ []) :
    ((∀ x ∈ ds, x ≤ marks.getD (marks.length - 1) 0) →
      ∃ cs, histGo ds marks (ds.length + marks.length) 0 0 counts = some cs)
    ∧ (List.Sorted (· ≤ ·) marks →
        (∃ k, k < ds.length ∧ marks.getD (marks.length - 1) 0 < ds.getD k 0) →
        ∀ fuel, histGo ds marks fuel 0 0 counts = none)
    ∧ ∀ (r : Reporter) (t : ℚ), ∃ rep, r.into_report t = some rep := by
  have hml : 0 < marks.length := List.length_pos.mpr hm
  refine ⟨?_, ?_, ?_⟩
  · intro hall
    refine histGo_terminates ds marks _ 0 0 counts hml ?_ (by omega)
    intro k _ hk
    rw [List.getD_eq_getElem ds 0 hk]
    exact hall _ (List.getElem_mem hk)
  · rintro hsort ⟨k, hk, hgt⟩ fuel
    exact histGo_diverges ds marks hsort fuel 0 0 counts hml ⟨k, Nat.zero_le k, hk, hgt⟩
  · intro r t
    obtain ⟨rep, hrep, _⟩ := into_report_eq r t
    exact ⟨rep, hrep⟩

/-- Witness for claim C10 with latencies `[1, 2]` and marks `[1, 2]`. -/
theorem claim_C10_witness :
    ((∀ x ∈ ([1, 2] : List ℚ), x ≤ ([1, 2] : List ℚ).getD (([1, 2] : List ℚ).length - 1) 0) →
      ∃ cs, histGo [1, 2] [1, 2] (([1, 2] : List ℚ).length + ([1, 2] : List ℚ).length) 0 0 [0, 0]
        = some cs)
    ∧ (List.Sorted (· ≤ ·) ([1, 2] : List ℚ) →
        (∃ k, k < ([1, 2] : List ℚ).length
          ∧ ([1, 2] : List ℚ).getD (([1, 2] : List ℚ).length - 1) 0
              < ([1, 2] : List ℚ).getD k 0) →
        ∀ fuel, histGo [1, 2] [1, 2] fuel 0 0 [0, 0] = none)
    ∧ ∀ (r : Reporter) (t : ℚ), ∃ rep, r.into_report t = some rep :=
  claim_C10 [1, 2] [1, 2] [0, 0] (by decide)

end Rey
